import Mathlib

/-!
Verification of the DNS log analysis tool (`daveio/dnstool`).

Strings are modelled as lists of characters (`Str`).  The embedding follows
`src/_meta/alternate-dns-analyzer.tsx`: `extractBaseDomain` and `processData`
are translated directly from the source; lodash `groupBy`/`countBy` become
first-occurrence-keyed grouping (JavaScript object keys keep insertion order),
and `Array.prototype.sort` with comparator `(a, b) => b.count - a.count`
becomes a stable merge sort with the boolean order `b.count ≤ a.count`.
The Python preprocessing script (`dns-analysis.py`) is not part of the
repository snapshot, so the NextDNS status normalization and the device
table are modelled from the specification where noted.
-/

/-- JavaScript strings are modelled as lists of characters. -/
abbrev Str := List Char

/-- `String.prototype.split(".")`: split a string at every dot.
`splitOnDot [] = [[]]` mirrors `"".split(".") == [""]`. -/
def splitOnDot : Str → List Str
  | [] => [[]]
  | c :: cs =>
    if c = '.' then [] :: splitOnDot cs
    else
      match splitOnDot cs with
      | [] => [[c]]
      | h :: t => (c :: h) :: t

/-- `Array.prototype.join(".")`: join label lists with dots. -/
def joinDot : List Str → Str
  | [] => []
  | [p] => p
  | p :: q :: ps => p ++ '.' :: joinDot (q :: ps)

/-- The reverse-DNS IPv4 suffix `".in-addr.arpa"`. -/
def inAddrArpa : Str := ".in-addr.arpa".data

/-- The reverse-DNS IPv6 suffix `".ip6.arpa"`. -/
def ip6Arpa : Str := ".ip6.arpa".data

/-- `extractBaseDomain` from `alternate-dns-analyzer.tsx`: returns `none` for a
falsy (empty) query value; for reverse-DNS names and ordinary names with at
least two labels it returns the last two dot-separated labels joined with a
dot (`parts.slice(-2).join(".")`, where `slice(-2)` on a list of length `n`
is `drop (n - 2)` with truncated subtraction); otherwise the input itself. -/
def extractBaseDomain (queryValue : Str) : Option Str :=
  if queryValue = [] then none
  else if inAddrArpa.isSuffixOf queryValue || ip6Arpa.isSuffixOf queryValue then
    some (joinDot ((splitOnDot queryValue).drop ((splitOnDot queryValue).length - 2)))
  else
    let parts := splitOnDot queryValue
    if 2 ≤ parts.length then some (joinDot (parts.drop (parts.length - 2)))
    else some queryValue

/-- The call `extractBaseDomain(row["Query Value"])` where the field may be
absent (JavaScript `undefined`/`null`, both falsy). -/
def extractBaseDomainOpt : Option Str → Option Str
  | none => none
  | some s => extractBaseDomain s

/-- Last `n` dot-separated labels of a string, joined back with dots; this is
the specification-side phrasing ("the last two dot-separated labels of the
original string") against which `extractBaseDomain` is compared. -/
def lastLabelsJoined (n : Nat) (q : Str) : Str :=
  joinDot (((splitOnDot q).reverse.take n).reverse)

/-- One parsed CSV row as delivered by `Papa.parse`.  A field that is absent,
`null`, or (because of `dynamicTyping`) not a string is modelled as `none`. -/
structure Row where
  queryValue : Option Str
  clientIP : Option Str
  queryType : Option Str
deriving DecidableEq

/-- JavaScript truthiness of a possibly-absent string field: present and
non-empty (the empty string is falsy). -/
def truthyStr : Option Str → Bool
  | none => false
  | some s => !(decide (s = []))

/-- The filter of `processData`: `row["Query Value"] && row["Client IP"] &&
typeof both === "string"` (non-string values are already `none` here). -/
def validRow (r : Row) : Bool :=
  truthyStr r.queryValue && truthyStr r.clientIP

/-- An enriched row: the original row spread together with its `baseDomain`. -/
structure ERow where
  row : Row
  baseDomain : Option Str
deriving DecidableEq

/-- `{...row, baseDomain: extractBaseDomain(row["Query Value"])}`. -/
def enrich (r : Row) : ERow :=
  { row := r, baseDomain := extractBaseDomainOpt r.queryValue }

/-- Conversion of a property value to a JavaScript object key: `null` and
`undefined` stringify to `"null"` (the value a dropped field would produce
under lodash keying). -/
def optKey : Option Str → Str
  | none => "null".data
  | some s => s

/-- Grouping key `"Client IP"`. -/
def clientKey (e : ERow) : Str := optKey e.row.clientIP

/-- Grouping key `"baseDomain"`. -/
def baseKey (e : ERow) : Str := optKey e.baseDomain

/-- Grouping key `"Query Type"`. -/
def qtypeKey (e : ERow) : Str := optKey e.row.queryType

/-- Deduplicate a list of keys keeping the first occurrence of each key, in
order — the key enumeration order of a JavaScript object built by insertion
(`Object.entries` after `_.groupBy` / `_.countBy`). -/
def dedupFirst : List Str → List Str
  | [] => []
  | k :: ks => k :: (dedupFirst ks).filter (fun x => !(decide (x = k)))

/-- `Object.entries(_.groupBy(rows, key))`: one entry per distinct key in
first-occurrence order, carrying the rows with that key in input order. -/
def groupRows (key : ERow → Str) (rows : List ERow) : List (Str × List ERow) :=
  (dedupFirst (rows.map key)).map
    (fun k => (k, rows.filter (fun r => decide (key r = k))))

/-- `Object.entries(_.countBy(rows, key))`. -/
def countByKey (key : ERow → Str) (rows : List ERow) : List (Str × Nat) :=
  (groupRows key rows).map (fun kv => (kv.1, kv.2.length))

/-- Stable insertion step for descending-count order: `a` is placed before the
first element whose count does not exceed `a`'s (elements that compare equal
keep their existing relative position, as `Array.prototype.sort` is stable). -/
def insertByCountDesc {α : Type} (count : α → Nat) (a : α) : List α → List α
  | [] => [a]
  | b :: bs =>
    if count b ≤ count a then a :: b :: bs
    else b :: insertByCountDesc count a bs

/-- `Array.prototype.sort` with comparator `(a, b) => bCount - aCount`: a
stable sort that puts larger counts first.  A stable sort's output is uniquely
determined by the comparator and the input order, so this insertion sort
computes exactly what the JavaScript engine's stable sort computes. -/
def sortByCountDesc {α : Type} (count : α → Nat) : List α → List α
  | [] => []
  | a :: as => insertByCountDesc count a (sortByCountDesc count as)

/-- An element of a `domains` ranking: `{ domain, count }`. -/
structure DomainCount where
  domain : Str
  count : Nat
deriving DecidableEq

/-- An element of an `ips` ranking: `{ ip, count }`. -/
structure IPCount where
  ip : Str
  count : Nat
deriving DecidableEq

/-- A query-type slice: `{ name, value }`. -/
structure QTypeCount where
  name : Str
  value : Nat
deriving DecidableEq

/-- One entry of `ipDomainCounts`. -/
structure IPEntry where
  ip : Str
  uniqueDomains : Nat
  totalQueries : Nat
  domains : List DomainCount
deriving DecidableEq

/-- One entry of `domainIPCounts`. -/
structure DomainEntry where
  domain : Str
  uniqueIPs : Nat
  totalQueries : Nat
  ips : List IPCount
deriving DecidableEq

/-- The `summary` object of the analysis result. -/
structure Summary where
  totalRecords : Nat
  uniqueDomains : Nat
  uniqueIPs : Nat
  queryTypes : List QTypeCount
deriving DecidableEq

/-- The full return value of `processData`. -/
structure Analysis where
  summary : Summary
  topDomains : List DomainCount
  topIPs : List IPCount
  ipDomainCounts : List IPEntry
  domainIPCounts : List DomainEntry
deriving DecidableEq

/-- `processData` from `alternate-dns-analyzer.tsx`, translated clause by
clause: filter invalid rows, enrich with base domains, group by client IP and
by base domain, count query types, rank top domains and IPs, and sort every
ranking by descending count. -/
def processData (data : List Row) : Analysis :=
  let validData := data.filter validRow
  let enrichedData := validData.map enrich
  let ipToDomains := groupRows clientKey enrichedData
  let ipDomainCounts : List IPEntry := ipToDomains.map (fun kv =>
    let domainCounts := countByKey baseKey kv.2
    { ip := kv.1,
      uniqueDomains := domainCounts.length,
      totalQueries := kv.2.length,
      domains := sortByCountDesc DomainCount.count
        (domainCounts.map (fun dc => { domain := dc.1, count := dc.2 })) })
  let domainToIPs := groupRows baseKey enrichedData
  let domainIPCounts : List DomainEntry := domainToIPs.map (fun kv =>
    let ipCounts := countByKey clientKey kv.2
    { domain := kv.1,
      uniqueIPs := ipCounts.length,
      totalQueries := kv.2.length,
      ips := sortByCountDesc IPCount.count
        (ipCounts.map (fun ic => { ip := ic.1, count := ic.2 })) })
  let queryTypeCounts := countByKey qtypeKey enrichedData
  let queryTypeData : List QTypeCount :=
    (queryTypeCounts.filter (fun kv => !(decide (kv.1 = "null".data)))).map
      (fun kv => { name := if kv.1 = [] then "Unknown".data else kv.1, value := kv.2 })
  let domainCounts := countByKey baseKey enrichedData
  let topDomains := sortByCountDesc DomainCount.count
    (domainCounts.map (fun dc => { domain := dc.1, count := dc.2 }))
  let ipCounts := countByKey clientKey enrichedData
  let topIPs := sortByCountDesc IPCount.count
    (ipCounts.map (fun ic => { ip := ic.1, count := ic.2 }))
  { summary :=
      { totalRecords := enrichedData.length,
        uniqueDomains := domainCounts.length,
        uniqueIPs := ipCounts.length,
        queryTypes := queryTypeData },
    topDomains := topDomains,
    topIPs := topIPs,
    ipDomainCounts := sortByCountDesc IPEntry.totalQueries ipDomainCounts,
    domainIPCounts := sortByCountDesc DomainEntry.totalQueries domainIPCounts }

/-- ASCII lower-casing of a string, `s.toLowerCase()`. -/
def strToLower (s : Str) : Str := s.map Char.toLower

/-- The canonical query status enum of the data model. -/
inductive Status where
  | allowed
  | blocked
  | unknown
deriving DecidableEq

/-- Modelled from the spec: `dns-analysis.py` (the Python preprocessing
script) is not in the repository snapshot; per §4.3 the NextDNS status
vocabulary "must be folded case-insensitively into the canonical
allowed/blocked/unknown enum before any counting happens". -/
def normalizeStatus (s : Str) : Status :=
  let l := strToLower s
  if l = "blocked".data then Status.blocked
  else if l = "allowed".data then Status.allowed
  else Status.unknown

/-- A raw NextDNS CSV row (the fields the device table needs). -/
structure NRow where
  clientIP : Str
  queryDomain : Str
  rawStatus : Str
deriving DecidableEq

/-- The canonical record after parsing (spec §3): status already folded into
the enum, base domain derived by the Domain Normalizer. -/
structure LogRecord where
  clientIP : Str
  queryDomain : Str
  baseDomain : Str
  status : Status
deriving DecidableEq

/-- Modelled from the spec: parsing one NextDNS row into a `LogRecord`
(`dns-analysis.py` is missing from src); the status is normalized here, before
any aggregation, and the base domain comes from the Domain Normalizer. -/
def parseNextDNSRow (r : NRow) : LogRecord :=
  { clientIP := r.clientIP,
    queryDomain := r.queryDomain,
    baseDomain := (extractBaseDomain r.queryDomain).getD r.queryDomain,
    status := normalizeStatus r.rawStatus }

/-- One row of the `devices` table (`Device` in the TypeScript types):
`blocked_percentage` is a rational number. -/
structure Device where
  ip : Str
  query_count : Nat
  unique_domains : Nat
  blocked_count : Nat
  blocked_percentage : ℚ
deriving DecidableEq

/-- Modelled from the spec: the `devices` table of `dns-analysis.py` (missing
from src), per §4.4 — one entry per client IP with total query count, distinct
base-domain count, count of records with `status == blocked`, and
`blocked_count / query_count * 100` (0 when `query_count` is 0). -/
def mkDevices (rows : List LogRecord) : List Device :=
  (dedupFirst (rows.map LogRecord.clientIP)).map (fun ip =>
    let mine := rows.filter (fun r => decide (r.clientIP = ip))
    let qc := mine.length
    let bc := (mine.filter (fun r => decide (r.status = Status.blocked))).length
    { ip := ip,
      query_count := qc,
      unique_domains := (dedupFirst (mine.map LogRecord.baseDomain)).length,
      blocked_count := bc,
      blocked_percentage := if qc = 0 then 0 else (bc : ℚ) / (qc : ℚ) * 100 })

/-- The device pipeline from raw NextDNS rows: parse (normalizing the status),
then aggregate into the device table. -/
def devicesOfRaw (rows : List NRow) : List Device :=
  mkDevices (rows.map parseNextDNSRow)

/-- Lexicographic (code-point) order on strings, the ascending "secondary
key" order the specification prescribes for breaking count ties. -/
def lexLe : Str → Str → Bool
  | [], _ => true
  | _ :: _, [] => false
  | a :: as, b :: bs => if a = b then lexLe as bs else decide (a < b)

/-- A concrete blocked log record, used as sample input in witnesses. -/
def sampleRecord : LogRecord :=
  ⟨"10.0.0.2".data, "x.example.com".data, "example.com".data, Status.blocked⟩

/-- The device row the sample record aggregates to. -/
def sampleDevice : Device := ⟨"10.0.0.2".data, 1, 1, 1, 100⟩

/-! ### Helper lemmas about the string model -/

theorem splitOnDot_ne_nil (s : Str) : splitOnDot s ≠ [] := by
  cases s with
  | nil => simp [splitOnDot]
  | cons c cs =>
    simp only [splitOnDot]
    by_cases h : c = '.'
    · simp [h]
    · simp only [if_neg h]
      cases hs : splitOnDot cs <;> simp

theorem joinDot_splitOnDot (s : Str) : joinDot (splitOnDot s) = s := by
  induction s with
  | nil => rfl
  | cons c cs ih =>
    simp only [splitOnDot]
    rcases hl : splitOnDot cs with _ | ⟨h1, t1⟩
    · exact absurd hl (splitOnDot_ne_nil cs)
    · rw [hl] at ih
      by_cases h : c = '.'
      · subst h
        simp only [if_pos rfl]
        show joinDot ([] :: h1 :: t1) = '.' :: cs
        simpa [joinDot] using ih
      · simp only [if_neg h]
        cases t1 with
        | nil =>
          show joinDot [c :: h1] = c :: cs
          simp only [joinDot] at ih ⊢
          rw [ih]
        | cons x xs =>
          show joinDot ((c :: h1) :: x :: xs) = c :: cs
          simp only [joinDot] at ih ⊢
          rw [← ih]
          simp

theorem joinDot_drop_suffix (k : Nat) (l : List Str) :
    joinDot (l.drop k) <:+ joinDot l := by
  induction l generalizing k with
  | nil => simp
  | cons p ps ih =>
    cases k with
    | zero => exact List.suffix_refl _
    | succ k1 =>
      have h1 : joinDot (ps.drop k1) <:+ joinDot ps := ih k1
      have h2 : joinDot ps <:+ joinDot (p :: ps) := by
        cases ps with
        | nil => simp [joinDot]
        | cons q qs =>
          show joinDot (q :: qs) <:+ joinDot (p :: q :: qs)
          exact ⟨p ++ ['.'], by simp [joinDot]⟩
      exact h1.trans h2

theorem drop_length_sub_eq {α : Type} (l : List α) (n : Nat) :
    l.drop (l.length - n) = (l.reverse.take n).reverse := by
  have h := List.reverse_take (l := l.reverse) (n := n)
  simpa using h.symm

theorem lastLabelsJoined_eq (n : Nat) (q : Str) :
    lastLabelsJoined n q
      = joinDot ((splitOnDot q).drop ((splitOnDot q).length - n)) := by
  unfold lastLabelsJoined
  rw [drop_length_sub_eq]

/-! ### Helper lemmas about grouping -/

theorem mem_dedupFirst {x : Str} : ∀ {l : List Str}, x ∈ l → x ∈ dedupFirst l := by
  intro l
  induction l with
  | nil => simp
  | cons k ks ih =>
    intro h
    by_cases hx : x = k
    · simp [dedupFirst, hx]
    · rcases List.mem_cons.mp h with h1 | h1
      · exact absurd h1 hx
      · simp only [dedupFirst, List.mem_cons]
        right
        exact List.mem_filter.mpr ⟨ih h1, by simp [hx]⟩

theorem nodup_dedupFirst : ∀ l : List Str, (dedupFirst l).Nodup
  | [] => List.nodup_nil
  | k :: ks => by
    simp only [dedupFirst]
    refine List.Nodup.cons ?_ ((nodup_dedupFirst ks).filter _)
    intro hk
    have := List.of_mem_filter hk
    simp at this

theorem length_filter_add_length_filter_neg {α : Type} (p : α → Bool) (l : List α) :
    (l.filter p).length + (l.filter (fun a => !(p a))).length = l.length := by
  induction l with
  | nil => rfl
  | cons a l ih => cases h : p a <;> simp [List.filter_cons, h, ← ih] <;> omega

theorem sum_filter_lengths_of_nodup {α : Type} (key : α → Str) :
    ∀ (ks : List Str) (rows : List α), ks.Nodup → (∀ r ∈ rows, key r ∈ ks) →
      (ks.map (fun k => (rows.filter (fun r => decide (key r = k))).length)).sum
        = rows.length := by
  intro ks
  induction ks with
  | nil =>
    intro rows _ hmem
    cases rows with
    | nil => rfl
    | cons r rs => exact absurd (hmem r (List.mem_cons_self r rs)) (List.not_mem_nil _)
  | cons k ks ih =>
    intro rows hnd hmem
    have hk : k ∉ ks := (List.nodup_cons.mp hnd).1
    have hnd1 : ks.Nodup := (List.nodup_cons.mp hnd).2
    set rows1 := rows.filter (fun r => !(decide (key r = k))) with hrows1
    have hmaps : ks.map (fun k1 => (rows.filter (fun r => decide (key r = k1))).length)
        = ks.map (fun k1 => (rows1.filter (fun r => decide (key r = k1))).length) := by
      refine List.map_congr_left ?_
      intro k1 hk1
      have hne : k1 ≠ k := by rintro rfl; exact hk hk1
      rw [hrows1, List.filter_filter]
      congr 1
      refine List.filter_congr ?_
      intro r _
      by_cases hr : key r = k1
      · simp [hr, hne]
      · simp [hr]
    have hmem1 : ∀ r ∈ rows1, key r ∈ ks := by
      intro r hr
      have h1 := List.mem_filter.mp hr
      have h2 := hmem r h1.1
      rcases List.mem_cons.mp h2 with h3 | h3
      · exfalso
        have := h1.2
        simp [h3] at this
      · exact h3
    calc (((k :: ks)).map
            (fun k1 => (rows.filter (fun r => decide (key r = k1))).length)).sum
        = (rows.filter (fun r => decide (key r = k))).length
            + (ks.map (fun k1 => (rows.filter (fun r => decide (key r = k1))).length)).sum := by
          simp
      _ = (rows.filter (fun r => decide (key r = k))).length + rows1.length := by
          rw [hmaps, ih rows1 hnd1 hmem1]
      _ = rows.length := length_filter_add_length_filter_neg _ rows

theorem sum_groupRows_lengths (key : ERow → Str) (rows : List ERow) :
    ((groupRows key rows).map (fun kv => kv.2.length)).sum = rows.length := by
  unfold groupRows
  rw [List.map_map]
  exact sum_filter_lengths_of_nodup key _ rows (nodup_dedupFirst _)
    (fun r hr => mem_dedupFirst (List.mem_map_of_mem key hr))

/-! ### Helper lemmas about the stable sort -/

theorem perm_insertByCountDesc {α : Type} (count : α → Nat) (a : α) (l : List α) :
    List.Perm (insertByCountDesc count a l) (a :: l) := by
  induction l with
  | nil => exact List.Perm.refl _
  | cons b bs ih =>
    simp only [insertByCountDesc]
    by_cases h : count b ≤ count a
    · rw [if_pos h]
    · rw [if_neg h]
      exact (ih.cons b).trans (List.Perm.swap a b bs)

theorem perm_sortByCountDesc {α : Type} (count : α → Nat) (l : List α) :
    List.Perm (sortByCountDesc count l) l := by
  induction l with
  | nil => exact List.Perm.refl _
  | cons a as ih =>
    simp only [sortByCountDesc]
    exact (perm_insertByCountDesc count a _).trans (ih.cons a)

theorem pairwise_insertByCountDesc {α : Type} (count : α → Nat) (a : α) (l : List α)
    (h : l.Pairwise (fun x y => count y ≤ count x)) :
    (insertByCountDesc count a l).Pairwise (fun x y => count y ≤ count x) := by
  induction l with
  | nil => simp [insertByCountDesc]
  | cons b bs ih =>
    have h1 : ∀ y ∈ bs, count y ≤ count b := (List.pairwise_cons.mp h).1
    have h2 : bs.Pairwise (fun x y => count y ≤ count x) := (List.pairwise_cons.mp h).2
    simp only [insertByCountDesc]
    by_cases hba : count b ≤ count a
    · rw [if_pos hba]
      refine List.Pairwise.cons ?_ h
      intro y hy
      rcases List.mem_cons.mp hy with rfl | hy1
      · exact hba
      · exact le_trans (h1 y hy1) hba
    · rw [if_neg hba]
      refine List.Pairwise.cons ?_ (ih h2)
      intro y hy
      rcases List.mem_cons.mp ((perm_insertByCountDesc count a bs).mem_iff.mp hy) with rfl | hy1
      · exact le_of_lt (lt_of_not_le hba)
      · exact h1 y hy1

theorem pairwise_sortByCountDesc {α : Type} (count : α → Nat) (l : List α) :
    (sortByCountDesc count l).Pairwise (fun x y => count y ≤ count x) := by
  induction l with
  | nil => simp [sortByCountDesc]
  | cons a as ih =>
    simp only [sortByCountDesc]
    exact pairwise_insertByCountDesc count a _ ih

/-! ### Claims about the Domain Normalizer -/

/-- C2 (amended): for every query string ending with `.in-addr.arpa` or
`.ip6.arpa`, `extractBaseDomain` returns the last two dot-separated labels of
the original string; in particular on `"44.8.0.10.in-addr.arpa"` it returns
`"in-addr.arpa"` (the last two labels), not `"10.in-addr.arpa"`. -/
theorem extractBaseDomain_reverse_dns :
    (∀ q : Str, inAddrArpa <:+ q ∨ ip6Arpa <:+ q →
      extractBaseDomain q = some (lastLabelsJoined 2 q)) ∧
    extractBaseDomain "44.8.0.10.in-addr.arpa".data = some "in-addr.arpa".data ∧
    lastLabelsJoined 2 "44.8.0.10.in-addr.arpa".data = "in-addr.arpa".data := by
  refine ⟨?_, by decide, by decide⟩
  intro q hq
  have hne : q ≠ [] := by
    rintro rfl
    rcases hq with h | h
    · have h1 := List.suffix_nil.mp h
      simp [inAddrArpa] at h1
    · have h1 := List.suffix_nil.mp h
      simp [ip6Arpa] at h1
  have hbool : (inAddrArpa.isSuffixOf q || ip6Arpa.isSuffixOf q) = true := by
    rcases hq with h | h
    · simp [List.isSuffixOf_iff_suffix.mpr h]
    · simp [List.isSuffixOf_iff_suffix.mpr h]
  unfold extractBaseDomain
  rw [if_neg hne, if_pos hbool, lastLabelsJoined_eq]

/-- C2 counterexample: the claimed value `"10.in-addr.arpa"` is not what the
code computes on `"44.8.0.10.in-addr.arpa"`. -/
theorem extractBaseDomain_reverse_dns_cex :
    ¬ (extractBaseDomain "44.8.0.10.in-addr.arpa".data
        = some "10.in-addr.arpa".data) := by decide

/-- Witness for the amended C2 theorem at a concrete reverse-DNS input. -/
theorem extractBaseDomain_reverse_dns_witness :
    (inAddrArpa <:+ "4.4.in-addr.arpa".data ∨ ip6Arpa <:+ "4.4.in-addr.arpa".data) ∧
    extractBaseDomain "4.4.in-addr.arpa".data
      = some (lastLabelsJoined 2 "4.4.in-addr.arpa".data) :=
  ⟨Or.inl (by decide),
    extractBaseDomain_reverse_dns.1 "4.4.in-addr.arpa".data (Or.inl (by decide))⟩

/-- C6: for every non-empty query string not ending in a reverse-DNS suffix,
`extractBaseDomain` returns the last two dot-separated labels when at least
two exist and the input unchanged otherwise; in particular
`"a.b.example.com" ↦ "example.com"` and `"localhost" ↦ "localhost"`. -/
theorem extractBaseDomain_ordinary :
    (∀ q : Str, q ≠ [] → ¬(inAddrArpa <:+ q) → ¬(ip6Arpa <:+ q) →
      extractBaseDomain q =
        if 2 ≤ (splitOnDot q).length then some (lastLabelsJoined 2 q)
        else some q) ∧
    extractBaseDomain "a.b.example.com".data = some "example.com".data ∧
    extractBaseDomain "localhost".data = some "localhost".data := by
  refine ⟨?_, by decide, by decide⟩
  intro q hne h1 h2
  have hbool : ¬((inAddrArpa.isSuffixOf q || ip6Arpa.isSuffixOf q) = true) := by
    simp only [Bool.or_eq_true, List.isSuffixOf_iff_suffix]
    rintro (h | h)
    · exact h1 h
    · exact h2 h
  unfold extractBaseDomain
  rw [if_neg hne, if_neg hbool]
  dsimp only
  by_cases hlen : 2 ≤ (splitOnDot q).length
  · rw [if_pos hlen, if_pos hlen, lastLabelsJoined_eq]
  · rw [if_neg hlen, if_neg hlen]

/-- Witness for the C6 theorem at concrete ordinary inputs. -/
theorem extractBaseDomain_ordinary_witness :
    ("x.y.z".data ≠ ([] : Str)) ∧ ¬(inAddrArpa <:+ "x.y.z".data) ∧
    ¬(ip6Arpa <:+ "x.y.z".data) ∧
    extractBaseDomain "x.y.z".data =
      (if 2 ≤ (splitOnDot "x.y.z".data).length
        then some (lastLabelsJoined 2 "x.y.z".data) else some "x.y.z".data) :=
  ⟨by decide, by decide, by decide,
    extractBaseDomain_ordinary.1 "x.y.z".data (by decide) (by decide) (by decide)⟩

/-- C10: on every non-empty query string the normalizer succeeds and its
result is a suffix of the input (a run of trailing dot-separated labels), so
it never invents characters and never returns `null` for non-empty input. -/
theorem extractBaseDomain_isSome_and_suffix (q : Str) (h : q ≠ []) :
    ∃ b, extractBaseDomain q = some b ∧ b <:+ q := by
  unfold extractBaseDomain
  rw [if_neg h]
  by_cases hb : (inAddrArpa.isSuffixOf q || ip6Arpa.isSuffixOf q) = true
  · rw [if_pos hb]
    refine ⟨_, rfl, ?_⟩
    have hs := joinDot_drop_suffix ((splitOnDot q).length - 2) (splitOnDot q)
    rwa [joinDot_splitOnDot] at hs
  · rw [if_neg hb]
    dsimp only
    by_cases hlen : 2 ≤ (splitOnDot q).length
    · rw [if_pos hlen]
      refine ⟨_, rfl, ?_⟩
      have hs := joinDot_drop_suffix ((splitOnDot q).length - 2) (splitOnDot q)
      rwa [joinDot_splitOnDot] at hs
    · rw [if_neg hlen]
      exact ⟨q, rfl, List.suffix_refl q⟩

/-- Witness for the C10 theorem at a concrete input. -/
theorem extractBaseDomain_isSome_and_suffix_witness :
    ∃ b, extractBaseDomain "mail.example.org".data = some b ∧
      b <:+ "mail.example.org".data :=
  extractBaseDomain_isSome_and_suffix "mail.example.org".data (by decide)

/-! ### Claims about the aggregation (`processData`) -/

theorem length_sortByCountDesc {α : Type} (count : α → Nat) (l : List α) :
    (sortByCountDesc count l).length = l.length :=
  (perm_sortByCountDesc count l).length_eq

theorem sum_counts_countByKey (key : ERow → Str) (rows : List ERow) :
    ((countByKey key rows).map (fun p => p.2)).sum = rows.length := by
  unfold countByKey
  rw [List.map_map]
  exact sum_groupRows_lengths key rows

/-- C3: the per-IP grouping partitions the valid records, so the per-device
query counts sum to the total record count of the overview stats. -/
theorem processData_sum_device_queries (data : List Row) :
    (((processData data).ipDomainCounts).map IPEntry.totalQueries).sum
      = (processData data).summary.totalRecords := by
  unfold processData
  dsimp only
  rw [((perm_sortByCountDesc IPEntry.totalQueries _).map IPEntry.totalQueries).sum_eq,
    List.map_map]
  exact sum_groupRows_lengths clientKey _

/-- C4: a record missing `query_domain` or `client_ip` (or carrying an empty
or non-string value there) is dropped before aggregation and contributes to
no count: the analysis of any input equals the analysis of its valid rows
only, and inserting an invalid row anywhere leaves the analysis unchanged
(the drop is not fatal — `processData` is total). -/
theorem processData_drops_invalid_rows :
    (∀ data : List Row, processData data = processData (data.filter validRow)) ∧
    (∀ (pre post : List Row) (r : Row), validRow r = false →
      processData (pre ++ r :: post) = processData (pre ++ post)) := by
  have hcongr : ∀ {d1 d2 : List Row}, d1.filter validRow = d2.filter validRow →
      processData d1 = processData d2 := by
    intro d1 d2 h
    unfold processData
    rw [h]
  constructor
  · intro data
    exact hcongr (by simp [List.filter_filter])
  · intro pre post r hr
    exact hcongr (by simp [List.filter_append, List.filter_cons, hr])

/-- Witness for C4: inserting a row with a missing client IP changes nothing. -/
theorem processData_drops_invalid_rows_witness :
    validRow ⟨some "a.com".data, none, some "A".data⟩ = false ∧
    processData
        ([⟨some "b.com".data, some "1.1.1.1".data, some "A".data⟩]
          ++ ⟨some "a.com".data, none, some "A".data⟩
            :: [⟨some "c.com".data, some "1.1.1.2".data, some "A".data⟩])
      = processData
        ([⟨some "b.com".data, some "1.1.1.1".data, some "A".data⟩]
          ++ [⟨some "c.com".data, some "1.1.1.2".data, some "A".data⟩]) :=
  ⟨by decide,
    processData_drops_invalid_rows.2
      [⟨some "b.com".data, some "1.1.1.1".data, some "A".data⟩]
      [⟨some "c.com".data, some "1.1.1.2".data, some "A".data⟩]
      ⟨some "a.com".data, none, some "A".data⟩ (by decide)⟩

/-- C5 (amended): every ranking produced by the aggregator (per-IP domain
lists, per-domain IP lists, top-domain and top-IP lists) is sorted descending
by count; entries with equal counts are NOT reordered by the secondary key —
the stable sort keeps them in first-occurrence order. -/
theorem processData_rankings_sorted_desc (data : List Row) :
    (∀ e ∈ (processData data).ipDomainCounts,
        e.domains.Pairwise (fun x y => y.count ≤ x.count)) ∧
    (∀ e ∈ (processData data).domainIPCounts,
        e.ips.Pairwise (fun x y => y.count ≤ x.count)) ∧
    (processData data).topDomains.Pairwise (fun x y => y.count ≤ x.count) ∧
    (processData data).topIPs.Pairwise (fun x y => y.count ≤ x.count) := by
  unfold processData
  dsimp only
  refine ⟨?_, ?_, pairwise_sortByCountDesc _ _, pairwise_sortByCountDesc _ _⟩
  · intro e he
    have he1 := (perm_sortByCountDesc IPEntry.totalQueries _).mem_iff.mp he
    rcases List.mem_map.mp he1 with ⟨kv, _, rfl⟩
    exact pairwise_sortByCountDesc _ _
  · intro e he
    have he1 := (perm_sortByCountDesc DomainEntry.totalQueries _).mem_iff.mp he
    rcases List.mem_map.mp he1 with ⟨kv, _, rfl⟩
    exact pairwise_sortByCountDesc _ _

/-- Witness for C5 (amended) at a concrete input with a count tie. -/
theorem processData_rankings_sorted_desc_witness :
    (⟨"1.1.1.1".data, 2, 2, [⟨"b.com".data, 1⟩, ⟨"a.com".data, 1⟩]⟩ : IPEntry) ∈
      (processData
        [⟨some "b.com".data, some "1.1.1.1".data, some "A".data⟩,
         ⟨some "a.com".data, some "1.1.1.1".data, some "A".data⟩]).ipDomainCounts ∧
    ([⟨"b.com".data, 1⟩, ⟨"a.com".data, 1⟩] : List DomainCount).Pairwise
      (fun x y => y.count ≤ x.count) :=
  ⟨by decide,
    (processData_rankings_sorted_desc
        [⟨some "b.com".data, some "1.1.1.1".data, some "A".data⟩,
         ⟨some "a.com".data, some "1.1.1.1".data, some "A".data⟩]).1
      ⟨"1.1.1.1".data, 2, 2, [⟨"b.com".data, 1⟩, ⟨"a.com".data, 1⟩]⟩ (by decide)⟩

/-- C5 counterexample: with two equal-count domains whose first occurrences
are in descending name order, the produced ranking keeps them in that order —
ties are NOT broken by the domain string ascending. -/
theorem processData_tie_order_cex :
    ¬ (∀ e ∈ (processData
        [⟨some "b.com".data, some "1.1.1.1".data, some "A".data⟩,
         ⟨some "a.com".data, some "1.1.1.1".data, some "A".data⟩]).ipDomainCounts,
      e.domains.Pairwise (fun x y => x.count = y.count → lexLe x.domain y.domain = true)) := by
  decide

/-- C7: aggregation is deterministic — running `processData` twice on the
same input yields identical output (the embedding is a pure function; the
source's only ordering freedom, comparator ties, is fixed by sort stability). -/
theorem processData_deterministic (data : List Row) :
    processData data = processData data := rfl

/-- C9: in each relationship entry the unique-counterpart count equals the
length of its ranking list, and the ranking counts sum to the entry total. -/
theorem processData_relationship_invariants (data : List Row) :
    (∀ e ∈ (processData data).ipDomainCounts,
        e.uniqueDomains = e.domains.length ∧
        (e.domains.map DomainCount.count).sum = e.totalQueries) ∧
    (∀ e ∈ (processData data).domainIPCounts,
        e.uniqueIPs = e.ips.length ∧
        (e.ips.map IPCount.count).sum = e.totalQueries) := by
  unfold processData
  dsimp only
  constructor
  · intro e he
    have he1 := (perm_sortByCountDesc IPEntry.totalQueries _).mem_iff.mp he
    rcases List.mem_map.mp he1 with ⟨kv, _, rfl⟩
    dsimp only
    constructor
    · rw [length_sortByCountDesc, List.length_map]
    · rw [((perm_sortByCountDesc DomainCount.count _).map DomainCount.count).sum_eq,
        List.map_map]
      exact sum_counts_countByKey baseKey kv.2
  · intro e he
    have he1 := (perm_sortByCountDesc DomainEntry.totalQueries _).mem_iff.mp he
    rcases List.mem_map.mp he1 with ⟨kv, _, rfl⟩
    dsimp only
    constructor
    · rw [length_sortByCountDesc, List.length_map]
    · rw [((perm_sortByCountDesc IPCount.count _).map IPCount.count).sum_eq,
        List.map_map]
      exact sum_counts_countByKey clientKey kv.2

/-- Witness for C9 at a concrete input. -/
theorem processData_relationship_invariants_witness :
    (⟨"1.1.1.1".data, 2, 2, [⟨"b.com".data, 1⟩, ⟨"a.com".data, 1⟩]⟩ : IPEntry) ∈
      (processData
        [⟨some "b.com".data, some "1.1.1.1".data, some "A".data⟩,
         ⟨some "a.com".data, some "1.1.1.1".data, some "A".data⟩]).ipDomainCounts ∧
    ((2 : Nat) = ([⟨"b.com".data, 1⟩, ⟨"a.com".data, 1⟩] : List DomainCount).length ∧
      (([⟨"b.com".data, 1⟩, ⟨"a.com".data, 1⟩] : List DomainCount).map
        DomainCount.count).sum = 2) :=
  ⟨by decide,
    (processData_relationship_invariants
        [⟨some "b.com".data, some "1.1.1.1".data, some "A".data⟩,
         ⟨some "a.com".data, some "1.1.1.1".data, some "A".data⟩]).1
      ⟨"1.1.1.1".data, 2, 2, [⟨"b.com".data, 1⟩, ⟨"a.com".data, 1⟩]⟩ (by decide)⟩

/-! ### Claims about status normalization and the device table -/

/-- C1: the NextDNS status vocabulary is folded case-insensitively into the
canonical enum before counting: the spellings `"Blocked"`, `"blocked"` and
`"BLOCKED"` all normalize to the blocked state, and the device table (hence
every `blocked_count`) depends on raw status strings only through
`normalizeStatus` — replacing raw statuses by any normalization-equivalent
spelling leaves the devices output unchanged. -/
theorem normalizeStatus_case_insensitive_counting :
    (normalizeStatus "Blocked".data = Status.blocked ∧
     normalizeStatus "blocked".data = Status.blocked ∧
     normalizeStatus "BLOCKED".data = Status.blocked) ∧
    (∀ (rows : List NRow) (f : Str → Str),
      (∀ s, normalizeStatus (f s) = normalizeStatus s) →
      devicesOfRaw (rows.map (fun r => { r with rawStatus := f r.rawStatus }))
        = devicesOfRaw rows) := by
  refine ⟨⟨by decide, by decide, by decide⟩, ?_⟩
  intro rows f hf
  unfold devicesOfRaw
  rw [List.map_map]
  congr 1
  refine List.map_congr_left ?_
  intro r _
  simp [parseNextDNSRow, hf]

/-- Witness for C1 at a concrete row and status-preserving map. -/
theorem normalizeStatus_case_insensitive_counting_witness :
    (∀ s : Str, normalizeStatus (id s) = normalizeStatus s) ∧
    devicesOfRaw (([⟨"10.0.0.2".data, "x.example.com".data, "Blocked".data⟩] :
          List NRow).map
        (fun r => { r with rawStatus := id r.rawStatus }))
      = devicesOfRaw [⟨"10.0.0.2".data, "x.example.com".data, "Blocked".data⟩] :=
  ⟨fun _ => rfl,
    normalizeStatus_case_insensitive_counting.2
      [⟨"10.0.0.2".data, "x.example.com".data, "Blocked".data⟩] id (fun _ => rfl)⟩

/-- C8: for every device produced by aggregation, `blocked_count` never
exceeds `query_count`, `blocked_percentage` equals
`blocked_count / query_count * 100`, is 0 when `query_count` is 0 (no
division fault), and always lies between 0 and 100. -/
theorem device_blocked_percentage_safe (rows : List LogRecord) (d : Device)
    (hd : d ∈ mkDevices rows) :
    d.blocked_count ≤ d.query_count ∧
    (d.query_count = 0 → d.blocked_percentage = 0) ∧
    (d.query_count ≠ 0 →
      d.blocked_percentage = (d.blocked_count : ℚ) / (d.query_count : ℚ) * 100) ∧
    0 ≤ d.blocked_percentage ∧ d.blocked_percentage ≤ 100 := by
  unfold mkDevices at hd
  rcases List.mem_map.mp hd with ⟨ip, hip, rfl⟩
  dsimp only
  set mine := rows.filter (fun r => decide (r.clientIP = ip)) with hmine
  have hle : (mine.filter (fun r => decide (r.status = Status.blocked))).length
      ≤ mine.length := List.length_filter_le _ mine
  refine ⟨hle, ?_, ?_, ?_, ?_⟩
  · intro h0
    rw [if_pos h0]
  · intro h0
    rw [if_neg h0]
  · by_cases h0 : mine.length = 0
    · rw [if_pos h0]
    · rw [if_neg h0]
      positivity
  · by_cases h0 : mine.length = 0
    · rw [if_pos h0]
      norm_num
    · rw [if_neg h0]
      have hq : (0 : ℚ) < (mine.length : ℚ) := by
        exact_mod_cast Nat.pos_of_ne_zero h0
      have h1 : ((mine.filter (fun r => decide (r.status = Status.blocked))).length : ℚ)
          / (mine.length : ℚ) ≤ 1 := by
        rw [div_le_one hq]
        exact_mod_cast hle
      calc ((mine.filter (fun r => decide (r.status = Status.blocked))).length : ℚ)
            / (mine.length : ℚ) * 100 ≤ 1 * 100 :=
          mul_le_mul_of_nonneg_right h1 (by norm_num)
        _ = 100 := one_mul 100

/-- Witness for C8 at a concrete one-record input. -/
theorem device_blocked_percentage_safe_witness :
    sampleDevice ∈ mkDevices [sampleRecord] ∧
    (0 ≤ sampleDevice.blocked_percentage ∧ sampleDevice.blocked_percentage ≤ 100) := by
  have hq : ((1 : Nat) : ℚ) / ((1 : Nat) : ℚ) * 100 = 100 := by norm_num
  have he : mkDevices [sampleRecord] = [sampleDevice] :=
    calc mkDevices [sampleRecord]
        = [⟨"10.0.0.2".data, 1, 1, 1, ((1 : Nat) : ℚ) / ((1 : Nat) : ℚ) * 100⟩] := rfl
      _ = [sampleDevice] := by rw [hq]; rfl
  have hmem : sampleDevice ∈ mkDevices [sampleRecord] := by
    rw [he]
    exact List.mem_singleton_self sampleDevice
  exact ⟨hmem, (device_blocked_percentage_safe [sampleRecord] sampleDevice hmem).2.2.2⟩
